import Mathlib

/-!
Verification of the turing-sim program (src/main.rs): a two-way-infinite-tape
Turing machine simulator with a block-compilation mode.

The Rust source is shallowly embedded below.  Machine integers of the generic
block type `T` (an unsigned `W`-bit integer, `W = 8 * size_of::<T>()`) are
modelled as `Nat` together with an explicit `bits` parameter wherever the
source relies on the width (the bitwise complement `!y` of a `W`-bit value is
`(2 ^ W - 1) ^^^ y`).  Code that can panic (vector indexing, `unwrap`) is
modelled with `Option`; the compiler's inner `while` loop, which the source
runs without a bound, takes explicit fuel and returns `none` when the fuel
runs out.
-/

namespace TuringSim

/-- The tape alphabet, `enum Bit { Zero, One }` in the source. -/
inductive Bit where
  | Zero
  | One
deriving DecidableEq, Repr

/-- Head motion, `enum TapeMotion { Left, Right }` in the source (also used
as the half selector of the tape). -/
inductive TapeMotion where
  | Left
  | Right
deriving DecidableEq, Repr

/-- Machine state, `enum State { HALT, Index(usize) }` in the source. -/
inductive State where
  | HALT
  | Index (i : Nat)
deriving DecidableEq, Repr

/-- `fn get_bit<T>(x: T, pos: usize) -> Bit`: `x & (1 << pos) == 0`. -/
def get_bit (x pos : Nat) : Bit :=
  if x &&& (1 <<< pos) = 0 then Bit.Zero else Bit.One

/-- `fn set_bit<T>(x: &mut T, pos: usize, b: Bit)`.  For `Zero` the source
masks with `!(1 << pos)`; the complement is taken at the width of `T`,
hence the explicit `bits` parameter: `!y = (2 ^ bits - 1) ^^^ y`. -/
def set_bit (bits x pos : Nat) (b : Bit) : Nat :=
  match b with
  | Bit.Zero => x &&& ((2 ^ bits - 1) ^^^ (1 <<< pos))
  | Bit.One => x ||| (1 <<< pos)

/-- `struct TuringStep { print, motion, next_state }`. -/
structure TuringStep where
  print : Bit
  motion : TapeMotion
  next_state : State
deriving DecidableEq, Repr

/-- `struct TuringState { zero, one }`: the two transitions of one state. -/
structure TuringState where
  zero : TuringStep
  one : TuringStep
deriving DecidableEq, Repr

/-- `struct TuringMachine<const N: usize> { states: [TuringState; N], state }`.
The fixed-size array is a list; `N` is `states.length`. -/
structure TuringMachine where
  states : List TuringState
  state : State
deriving DecidableEq, Repr

/-- `struct Tape<T> { right, left, vec_index, bit_index, half }`.  Blocks are
`W`-bit unsigned values, modelled as `Nat`. -/
structure Tape where
  right : List Nat
  left : List Nat
  vec_index : Nat
  bit_index : Nat
  half : TapeMotion
deriving DecidableEq, Repr

/-- `Tape::new()`: one zero block on each half, cursor at the right origin. -/
def Tape.new : Tape :=
  { right := [0], left := [0], vec_index := 0, bit_index := 0,
    half := TapeMotion.Right }

/-- `Tape::get`: reads the bit at the cursor.  The source indexes
`vec[self.vec_index]` directly, which panics out of bounds; that panic is
modelled as `none`. -/
def Tape.get (t : Tape) : Option Bit :=
  let vec := match t.half with
    | TapeMotion.Left => t.left
    | TapeMotion.Right => t.right
  (vec.get? t.vec_index).map fun v => get_bit v t.bit_index

/-- `Tape::set`: writes `b` at the cursor.  The source calls
`vec.get_mut(self.vec_index).unwrap()`; the `unwrap` panic is `none`. -/
def Tape.set (bits : Nat) (t : Tape) (b : Bit) : Option Tape :=
  match t.half with
  | TapeMotion.Left =>
    match t.left.get? t.vec_index with
    | none => none
    | some v =>
      some { t with left := t.left.set t.vec_index (set_bit bits v t.bit_index b) }
  | TapeMotion.Right =>
    match t.right.get? t.vec_index with
    | none => none
    | some v =>
      some { t with right := t.right.set t.vec_index (set_bit bits v t.bit_index b) }

/-- `Tape::move_tape(motion)`: advance the cursor one bit, growing the active
half with a zero block when the cursor passes its last block. -/
def Tape.move_tape (bits : Nat) (t : Tape) (motion : TapeMotion) : Tape :=
  match t.half, motion with
  | TapeMotion.Left, TapeMotion.Left | TapeMotion.Right, TapeMotion.Right =>
    if t.bit_index = bits - 1 then
      let t1 := { t with bit_index := 0, vec_index := t.vec_index + 1 }
      match t1.half with
      | TapeMotion.Left =>
        if t1.vec_index = t1.left.length then { t1 with left := t1.left ++ [0] } else t1
      | TapeMotion.Right =>
        if t1.vec_index = t1.right.length then { t1 with right := t1.right ++ [0] } else t1
    else
      { t with bit_index := t.bit_index + 1 }
  | TapeMotion.Left, TapeMotion.Right | TapeMotion.Right, TapeMotion.Left =>
    if t.bit_index = 0 then
      if t.vec_index = 0 then
        { t with half := match t.half with
          | TapeMotion.Left => TapeMotion.Right
          | TapeMotion.Right => TapeMotion.Left }
      else
        { t with bit_index := bits - 1, vec_index := t.vec_index - 1 }
    else
      { t with bit_index := t.bit_index - 1 }

/-- `Tape::get_index() -> isize`.  `shift = bits.ilog2()` is `Nat.log2 bits`.
On the left half the source computes `!x as isize`, the two's-complement
reading of the bitwise complement of the usize `x`, which equals `-(x + 1)`
for the in-range values that occur. -/
def Tape.get_index (bits : Nat) (t : Tape) : Int :=
  let shift := Nat.log2 bits
  match t.half with
  | TapeMotion.Right => ((t.vec_index <<< shift) ||| t.bit_index : Nat)
  | TapeMotion.Left => -(((t.vec_index <<< shift) ||| t.bit_index : Nat) + 1)

/-- `TuringMachine::step(tape, state)`: read, select the transition, write,
move, update the machine state.  Array indexing panics are `none`. -/
def TuringMachine.step (bits : Nat) (tm : TuringMachine) (tape : Tape)
    (state : Nat) : Option (TuringMachine × Tape) :=
  match tape.get with
  | none => none
  | some b =>
    match tm.states.get? state with
    | none => none
    | some ts =>
      let stp := match b with
        | Bit.Zero => ts.zero
        | Bit.One => ts.one
      match Tape.set bits tape stp.print with
      | none => none
      | some tape1 =>
        some ({ tm with state := stp.next_state }, Tape.move_tape bits tape1 stp.motion)

/-- Tapes reachable from `Tape::new()` by `get` (no mutation), `set` and
`move_tape`. -/
inductive Tape.Reachable (bits : Nat) : Tape → Prop where
  | new : Tape.Reachable bits Tape.new
  | set : ∀ t b t1, Tape.Reachable bits t → Tape.set bits t b = some t1 →
      Tape.Reachable bits t1
  | move : ∀ t m, Tape.Reachable bits t → Tape.Reachable bits (Tape.move_tape bits t m)

/-- Cursor validity: both halves non-empty, the cursor's block exists in the
active half, and the bit offset is inside the block. -/
def Tape.Inv (bits : Nat) (t : Tape) : Prop :=
  t.left ≠ [] ∧ t.right ≠ [] ∧
  t.vec_index < (match t.half with
    | TapeMotion.Left => t.left
    | TapeMotion.Right => t.right).length ∧
  t.bit_index < bits

/-- The logical content of the tape at a signed position: position `p ≥ 0` is
bit `p % W` of right-half block `p / W`, position `p < 0` is bit of the
left-half block addressed by `-(p + 1)`.  Unallocated blocks read as zero. -/
def Tape.read_at (bits : Nat) (t : Tape) (pos : Int) : Bit :=
  if 0 ≤ pos then
    get_bit (t.right.getD (pos.toNat / bits) 0) (pos.toNat % bits)
  else
    get_bit (t.left.getD ((-(pos + 1)).toNat / bits) 0) ((-(pos + 1)).toNat % bits)

/-- `k` repeated `move_tape` calls in one fixed direction starting from
`Tape::new()`. -/
def Tape.moveRep (bits : Nat) (m : TapeMotion) : Nat → Tape
  | 0 => Tape.new
  | k + 1 => Tape.move_tape bits (Tape.moveRep bits m k) m

/-- The `direction_state` byte built at the end of `compile`'s entry loop:
`match state { Index(s) => s as u8, HALT => !0 << 1 } | match exited
{ None | Some(Right) => 0, Some(Left) => 1 }`.  `s as u8` truncates to
8 bits and `!0u8 << 1 = 254`. -/
def encodeDirState (state : State) (exited : Option TapeMotion) : Nat :=
  (match state with
   | State.Index s => s % 256
   | State.HALT => 254) |||
  (match exited with
   | none => 0
   | some TapeMotion.Right => 0
   | some TapeMotion.Left => 1)

/-- `CompiledStep::get_direction`: low bit 0 decodes as `Left`, otherwise
`Right`. -/
def get_direction (direction_state : Nat) : TapeMotion :=
  if direction_state &&& 1 = 0 then TapeMotion.Left else TapeMotion.Right

/-- `CompiledStep::get_state() -> i8`: `direction_state >> 1`, with the
all-ones pattern `!0u8 >> 1 = 127` decoding to `-1`; any other value of a
`u8` shifted right once is at most 127 and `result as i8` is itself. -/
def get_state (direction_state : Nat) : Int :=
  let result := direction_state >>> 1
  if result = 127 then -1 else (result : Int)

/-- The inner `while exited.is_none()` loop of `TuringMachine::compile`, one
transition per unit of fuel.  The source runs it unboundedly; `none` models
both fuel exhaustion and the panic on an out-of-range state index. -/
def compileLoop (bits : Nat) (tm : TuringMachine) (fuel : Nat)
    (tape position : Nat) (state : State) (exited : Option TapeMotion) :
    Option (Nat × State × Option TapeMotion) :=
  match exited with
  | some d => some (tape, state, some d)
  | none =>
    match state with
    | State.HALT => some (tape, State.HALT, none)
    | State.Index s =>
      match fuel with
      | 0 => none
      | fuel1 + 1 =>
        match tm.states.get? s with
        | none => none
        | some ts =>
          let stp := match get_bit tape position with
            | Bit.Zero => ts.zero
            | Bit.One => ts.one
          let tape1 := set_bit bits tape position stp.print
          match stp.motion with
          | TapeMotion.Left =>
            if position = bits - 1 then
              compileLoop bits tm fuel1 tape1 position stp.next_state
                (some TapeMotion.Left)
            else
              compileLoop bits tm fuel1 tape1 (position + 1) stp.next_state none
          | TapeMotion.Right =>
            if position = 0 then
              compileLoop bits tm fuel1 tape1 position stp.next_state
                (some TapeMotion.Right)
            else
              compileLoop bits tm fuel1 tape1 (position - 1) stp.next_state none

/-- One entry of `compile`'s lookup table, from the flat index `i`:
`tape = i & state_mask` with `state_mask = usize::MAX >> (64 - bits)
= 2 ^ bits - 1`, the entry position is `bits - 1` when `i & (1 << bits)`
is zero (entered from the left) and `0` otherwise, and the starting state
is `Index(i >> (bits + 1))`. -/
def compileEntry (bits : Nat) (tm : TuringMachine) (fuel i : Nat) :
    Option (Nat × Nat) :=
  let state_mask := 2 ^ bits - 1
  let tape := i &&& state_mask
  let position := if i &&& (1 <<< bits) = 0 then bits - 1 else 0
  match compileLoop bits tm fuel tape position (State.Index (i >>> (bits + 1))) none with
  | none => none
  | some (tape1, st, ex) => some (tape1, encodeDirState st ex)

/-- `TuringMachine::compile`: `assert!(N < i8::MAX as usize)` (so the outer
`none` is exactly the assertion failure with `i8::MAX = 127`), then a table
of `num_steps = N * 2 * 1 << bits` entries, slot `i` holding the entry for
flat index `i` (`none` in a slot models an entry whose inner loop never
terminates within the given fuel). -/
def compile (bits : Nat) (tm : TuringMachine) (fuel : Nat) :
    Option (List (Option (Nat × Nat))) :=
  if tm.states.length < 127 then
    some ((List.range ((tm.states.length * 2 * 1) <<< bits)).map
      (compileEntry bits tm fuel))
  else
    none

/-- The `Index<CompiledStep<T>>` impl for `CompiledTuringMachine`: the flat
lookup index is `index.tape | (index.direction_state as usize) << bits`, and
`self.lut.get(vec_index).unwrap()` panics (`none`) past the end. -/
def lut_index (bits : Nat) (lut : List (Option (Nat × Nat)))
    (tape direction_state : Nat) : Option (Option (Nat × Nat)) :=
  lut.get? (tape ||| direction_state <<< bits)

/-- Modelled from the spec (4.3), not from the source: the outcome of running
the raw interpreter inside one isolated block — the final state, or the edge
departed plus the resulting state index. -/
inductive BlockOutcome where
  | halted
  | exited (d : TapeMotion) (s : Nat)
deriving DecidableEq, Repr

/-- Follows the spec's words (4.3 with the 9 clarifier): run the raw
single-step transition logic on an isolated `bits`-wide block.  Each
iteration reads the bit under the simulated head, writes the transition's
print bit, then: halting takes precedence (record `halted`, content final);
a `Left` move at position `bits - 1` departs the left edge, a `Right` move
at position `0` departs the right edge; otherwise the head moves one cell
(`+1` for `Left`, `-1` for `Right`) and the run continues in the next
state. -/
def specBlockRun (bits : Nat) (tm : TuringMachine) (fuel : Nat)
    (content pos s : Nat) : Option (Nat × BlockOutcome) :=
  match fuel with
  | 0 => none
  | fuel1 + 1 =>
    match tm.states.get? s with
    | none => none
    | some ts =>
      let stp := match get_bit content pos with
        | Bit.Zero => ts.zero
        | Bit.One => ts.one
      let content1 := set_bit bits content pos stp.print
      match stp.next_state with
      | State.HALT => some (content1, BlockOutcome.halted)
      | State.Index s1 =>
        match stp.motion with
        | TapeMotion.Left =>
          if pos = bits - 1 then
            some (content1, BlockOutcome.exited TapeMotion.Left s1)
          else
            specBlockRun bits tm fuel1 content1 (pos + 1) s1
        | TapeMotion.Right =>
          if pos = 0 then
            some (content1, BlockOutcome.exited TapeMotion.Right s1)
          else
            specBlockRun bits tm fuel1 content1 (pos - 1) s1

/-- The flat table index keying the combination `(s, c, e)`; `e = true` means
entered from the right (head starts at 0). -/
def flat_index (bits s c : Nat) (e : Bool) : Nat :=
  s * 2 ^ (bits + 1) + (if e then 2 ^ bits else 0) + c

/-- The compiled-entry computation keyed directly by
`(state, content, entry side)` rather than by a flat index. -/
def entry_for (bits : Nat) (tm : TuringMachine) (fuel s c : Nat) (e : Bool) :
    Option (Nat × Nat) :=
  match compileLoop bits tm fuel c (if e then 0 else bits - 1) (State.Index s) none with
  | none => none
  | some (tape1, st, ex) => some (tape1, encodeDirState st ex)


/-- The machine state corresponding to a spec-side block outcome. -/
def outState : BlockOutcome → State
  | BlockOutcome.halted => State.HALT
  | BlockOutcome.exited _ s1 => State.Index s1

/-- A second example machine used as a concrete input: three states, state 0
sends both reads `Right` into state 2; states 1 and 2 halt immediately. -/
def exM3 : TuringMachine :=
  { states := [
      { zero := { print := Bit.Zero, motion := TapeMotion.Right,
                  next_state := State.Index 2 },
        one := { print := Bit.Zero, motion := TapeMotion.Right,
                 next_state := State.Index 2 } },
      { zero := { print := Bit.Zero, motion := TapeMotion.Right,
                  next_state := State.HALT },
        one := { print := Bit.Zero, motion := TapeMotion.Right,
                 next_state := State.HALT } },
      { zero := { print := Bit.Zero, motion := TapeMotion.Right,
                  next_state := State.HALT },
        one := { print := Bit.Zero, motion := TapeMotion.Right,
                 next_state := State.HALT } } ],
    state := State.Index 0 }

/-- An example machine used as a concrete input by witnesses: one state whose
transitions print `One`, move `Right` and halt. -/
def exM1 : TuringMachine :=
  { states := [
      { zero := { print := Bit.One, motion := TapeMotion.Right,
                  next_state := State.HALT },
        one := { print := Bit.One, motion := TapeMotion.Right,
                 next_state := State.HALT } } ],
    state := State.Index 0 }

/-- A concrete compiled table used by witnesses: `exM1` compiled at
`bits = 1`. -/
def exLut : List (Option (Nat × Nat)) := (compile 1 exM1 2).getD []

/-! ## Helper lemmas -/

/-- Splicing a value below a shifted one: when `b` fits in `k` bits the
bitwise or is plain addition. -/
theorem shiftLeft_lor_eq_add (a k b : Nat) (h : b < 2 ^ k) :
    (a <<< k) ||| b = a * 2 ^ k + b := by
  apply Nat.eq_of_testBit_eq
  intro i
  rw [Nat.mul_comm a (2 ^ k), Nat.testBit_mul_pow_two_add a h i,
    Nat.testBit_or, Nat.testBit_shiftLeft]
  by_cases hik : i < k
  · simp [hik, Nat.not_le_of_lt hik]
  · have hb : b.testBit i = false :=
      Nat.testBit_lt_two_pow (Nat.lt_of_lt_of_le h (Nat.pow_le_pow_right (by decide) (Nat.le_of_not_lt hik)))
    simp [hik, Nat.le_of_not_lt hik, hb]

theorem inv_new (bits : Nat) (h : 0 < bits) : Tape.Inv bits Tape.new := by
  refine ⟨by simp [Tape.new], by simp [Tape.new], ?_, h⟩
  simp [Tape.new]

theorem inv_set {bits : Nat} {t t1 : Tape} {b : Bit}
    (hs : Tape.set bits t b = some t1) (hi : Tape.Inv bits t) :
    Tape.Inv bits t1 := by
  obtain ⟨hl, hr, hv, hb⟩ := hi
  rcases t with ⟨right, left, v, bi, half⟩
  cases half <;> simp only [Tape.set] at hs
  · rcases hg : left.get? v with _ | x
    · rw [hg] at hs; cases hs
    · rw [hg] at hs
      cases hs
      refine ⟨?_, hr, ?_, hb⟩
      · intro hnil
        have := congrArg List.length hnil
        simp at this
        simp [this] at hl
      · simpa using hv
  · rcases hg : right.get? v with _ | x
    · rw [hg] at hs; cases hs
    · rw [hg] at hs
      cases hs
      refine ⟨hl, ?_, ?_, hb⟩
      · intro hnil
        have := congrArg List.length hnil
        simp at this
        simp [this] at hr
      · simpa using hv

theorem inv_move {bits : Nat} (h : 0 < bits) {t : Tape} (m : TapeMotion)
    (hi : Tape.Inv bits t) : Tape.Inv bits (Tape.move_tape bits t m) := by
  obtain ⟨hl, hr, hv, hb⟩ := hi
  rcases t with ⟨right, left, v, bi, half⟩
  have hlpos : 0 < left.length := List.length_pos.mpr hl
  have hrpos : 0 < right.length := List.length_pos.mpr hr
  dsimp only at hb
  cases half <;> cases m <;>
    dsimp only [Tape.move_tape] <;> dsimp only at hv
  · -- Left, Left: outward on the left half
    split
    · split
      · next heq =>
        refine ⟨by simp [hl], hr, ?_, h⟩
        dsimp only
        simp only [List.length_append, List.length_singleton]
        omega
      · next hne =>
        exact ⟨hl, hr, by dsimp only; omega, h⟩
    · exact ⟨hl, hr, by dsimp only; omega, by dsimp only; omega⟩
  · -- Left, Right: inward on the left half
    split
    · split
      · exact ⟨hl, hr, by dsimp only; omega, by dsimp only; omega⟩
      · exact ⟨hl, hr, by dsimp only; omega, by dsimp only; omega⟩
    · exact ⟨hl, hr, by dsimp only; omega, by dsimp only; omega⟩
  · -- Right, Left: inward on the right half
    split
    · split
      · exact ⟨hl, hr, by dsimp only; omega, by dsimp only; omega⟩
      · exact ⟨hl, hr, by dsimp only; omega, by dsimp only; omega⟩
    · exact ⟨hl, hr, by dsimp only; omega, by dsimp only; omega⟩
  · -- Right, Right: outward on the right half
    split
    · split
      · next heq =>
        refine ⟨hl, by simp [hr], ?_, h⟩
        dsimp only
        simp only [List.length_append, List.length_singleton]
        omega
      · next hne =>
        exact ⟨hl, hr, by dsimp only; omega, h⟩
    · exact ⟨hl, hr, by dsimp only; omega, by dsimp only; omega⟩

theorem reachable_inv {bits : Nat} (h : 0 < bits) {t : Tape}
    (hr : Tape.Reachable bits t) : Tape.Inv bits t := by
  induction hr with
  | new => exact inv_new bits h
  | set t b t1 _ hs ih => exact inv_set hs ih
  | move t m _ ih => exact inv_move h m ih

theorem get_isSome_of_inv {bits : Nat} {t : Tape} (hi : Tape.Inv bits t) :
    (Tape.get t).isSome := by
  obtain ⟨_, _, hv, _⟩ := hi
  rcases t with ⟨right, left, v, bi, half⟩
  cases half <;> dsimp only [Tape.get] <;> dsimp only at hv <;>
    simp [List.getElem?_eq_getElem hv]

theorem set_isSome_of_inv {bits : Nat} {t : Tape} (b : Bit) (hi : Tape.Inv bits t) :
    (Tape.set bits t b).isSome := by
  obtain ⟨_, _, hv, _⟩ := hi
  rcases t with ⟨right, left, v, bi, half⟩
  cases half <;> dsimp only [Tape.set] <;> dsimp only at hv <;>
    simp [List.getElem?_eq_getElem hv]

/-! ## Claims -/

/-- C7: every tape reachable from `Tape::new()` by `get`, `set` and
`move_tape` keeps both block sequences non-empty, its block cursor strictly
inside the active half and its bit cursor strictly inside the block, so
`get` and `set` always succeed (their panicking branches are unreachable). -/
theorem claim_C7 (bits : Nat) (t : Tape) (h : 0 < bits)
    (hr : Tape.Reachable bits t) :
    t.left ≠ [] ∧ t.right ≠ [] ∧
    t.vec_index < (match t.half with
      | TapeMotion.Left => t.left
      | TapeMotion.Right => t.right).length ∧
    t.bit_index < bits ∧
    (Tape.get t).isSome ∧ (∀ b, (Tape.set bits t b).isSome) := by
  have hi := reachable_inv h hr
  obtain ⟨h1, h2, h3, h4⟩ := hi
  exact ⟨h1, h2, h3, h4, get_isSome_of_inv ⟨h1, h2, h3, h4⟩,
    fun b => set_isSome_of_inv b ⟨h1, h2, h3, h4⟩⟩

/-- C7 witness at `bits = 8` on the fresh tape. -/
theorem claim_C7_witness :
    Tape.new.left ≠ [] ∧ Tape.new.right ≠ [] ∧
    Tape.new.vec_index < (match Tape.new.half with
      | TapeMotion.Left => Tape.new.left
      | TapeMotion.Right => Tape.new.right).length ∧
    Tape.new.bit_index < 8 ∧
    (Tape.get Tape.new).isSome ∧ (∀ b, (Tape.set 8 Tape.new b).isSome) :=
  claim_C7 8 Tape.new (by decide) Tape.Reachable.new

/-- C6: on every reachable tape, one `move_tape` in the `Right` direction
increases the signed position `get_index` by exactly 1 and one `move_tape`
in the `Left` direction decreases it by exactly 1, including the moves that
cross the origin between the two halves (`bits` is the power-of-two block
width, as in the source). -/
theorem claim_C6 (bits k : Nat) (t : Tape) (hpow : bits = 2 ^ k)
    (hr : Tape.Reachable bits t) :
    Tape.get_index bits (Tape.move_tape bits t TapeMotion.Right)
      = Tape.get_index bits t + 1 ∧
    Tape.get_index bits (Tape.move_tape bits t TapeMotion.Left)
      = Tape.get_index bits t - 1 := by
  have h0 : 0 < bits := by rw [hpow]; exact Nat.two_pow_pos k
  obtain ⟨hl, hr2, hv, hb⟩ := reachable_inv h0 hr
  rcases t with ⟨right, left, v, b, half⟩
  dsimp only at hb hv
  have hlog : Nat.log2 bits = k := by rw [hpow, Nat.log2_two_pow]
  have key : ∀ v1 b1 : Nat, b1 < bits →
      ((v1 <<< k ||| b1 : Nat) : Int) = v1 * bits + b1 := by
    intro v1 b1 hb1
    rw [shiftLeft_lor_eq_add v1 k b1 (hpow ▸ hb1)]
    push_cast [hpow]
    ring
  have hm : ∀ m : Nat, ((m : Int) + 1) * (bits : Int) = m * bits + bits := by
    intro m; ring
  cases half
  case Left =>
    constructor
    · -- move Right on the left half: inward, index increases by 1
      dsimp only [Tape.move_tape]
      by_cases hb0 : b = 0
      · rw [if_pos hb0]
        by_cases hv0 : v = 0
        · rw [if_pos hv0]
          subst hb0
          subst hv0
          dsimp only [Tape.get_index]
          rw [hlog, key 0 0 h0]
          omega
        · rw [if_neg hv0]
          dsimp only [Tape.get_index]
          rw [hlog, key (v - 1) (bits - 1) (by omega), key v b hb]
          have h1 : ((v : Int)) * bits = ((v - 1 : Nat) : Int) * bits + bits := by
            have h2 : ((v : Int)) = ((v - 1 : Nat) : Int) + 1 := by omega
            rw [h2, hm]
          omega
      · rw [if_neg hb0]
        dsimp only [Tape.get_index]
        rw [hlog, key v (b - 1) (by omega), key v b hb]
        omega
    · -- move Left on the left half: outward, index decreases by 1
      dsimp only [Tape.move_tape]
      by_cases hb1 : b = bits - 1
      · rw [if_pos hb1]
        split
        all_goals
          dsimp only [Tape.get_index]
          rw [hlog, key (v + 1) 0 h0, key v b hb]
          have h1 : ((v + 1 : Nat) : Int) * bits = (v : Int) * bits + bits := by
            push_cast
            rw [hm]
          omega
      · rw [if_neg hb1]
        dsimp only [Tape.get_index]
        rw [hlog, key v (b + 1) (by omega), key v b hb]
        omega
  case Right =>
    constructor
    · -- move Right on the right half: outward, index increases by 1
      dsimp only [Tape.move_tape]
      by_cases hb1 : b = bits - 1
      · rw [if_pos hb1]
        split
        all_goals
          dsimp only [Tape.get_index]
          rw [hlog, key (v + 1) 0 h0, key v b hb]
          have h1 : ((v + 1 : Nat) : Int) * bits = (v : Int) * bits + bits := by
            push_cast
            rw [hm]
          omega
      · rw [if_neg hb1]
        dsimp only [Tape.get_index]
        rw [hlog, key v (b + 1) (by omega), key v b hb]
        omega
    · -- move Left on the right half: inward, index decreases by 1
      dsimp only [Tape.move_tape]
      by_cases hb0 : b = 0
      · rw [if_pos hb0]
        by_cases hv0 : v = 0
        · rw [if_pos hv0]
          subst hb0
          subst hv0
          dsimp only [Tape.get_index]
          rw [hlog, key 0 0 h0]
          omega
        · rw [if_neg hv0]
          dsimp only [Tape.get_index]
          rw [hlog, key (v - 1) (bits - 1) (by omega), key v b hb]
          have h1 : ((v : Int)) * bits = ((v - 1 : Nat) : Int) * bits + bits := by
            have h2 : ((v : Int)) = ((v - 1 : Nat) : Int) + 1 := by omega
            rw [h2, hm]
          omega
      · rw [if_neg hb0]
        dsimp only [Tape.get_index]
        rw [hlog, key v (b - 1) (by omega), key v b hb]
        omega

/-- C6 witness at `bits = 8 = 2 ^ 3` on the fresh tape. -/
theorem claim_C6_witness :
    Tape.get_index 8 (Tape.move_tape 8 Tape.new TapeMotion.Right)
      = Tape.get_index 8 Tape.new + 1 ∧
    Tape.get_index 8 (Tape.move_tape 8 Tape.new TapeMotion.Left)
      = Tape.get_index 8 Tape.new - 1 :=
  claim_C6 8 3 Tape.new (by decide) Tape.Reachable.new

/-! Helper lemmas for the tape growth characterization. -/

theorem succ_div_eq (bits n : Nat) (h0 : 0 < bits) (hb : n % bits = bits - 1) :
    (n + 1) / bits = n / bits + 1 ∧ (n + 1) % bits = 0 := by
  have hdm := Nat.div_add_mod n bits
  have hms : bits * (n / bits + 1) = bits * (n / bits) + bits := by ring
  have h1 : n + 1 = bits * (n / bits + 1) := by omega
  constructor
  · rw [h1, Nat.mul_div_cancel_left _ h0]
  · rw [h1, Nat.mul_mod_right]

theorem succ_div_ne (bits n : Nat) (h0 : 0 < bits) (hb : ¬ n % bits = bits - 1) :
    (n + 1) / bits = n / bits ∧ (n + 1) % bits = n % bits + 1 := by
  have hdm := Nat.div_add_mod n bits
  have hlt : n % bits < bits := Nat.mod_lt n h0
  have h1 : n + 1 = (n % bits + 1) + bits * (n / bits) := by omega
  constructor
  · rw [h1, Nat.add_mul_div_left _ _ h0, Nat.div_eq_of_lt (by omega)]
    omega
  · rw [h1, Nat.add_mul_mod_self_left, Nat.mod_eq_of_lt (by omega)]

theorem moveRep_right_char (bits : Nat) (h0 : 0 < bits) (k : Nat) :
    Tape.moveRep bits TapeMotion.Right k =
      { right := List.replicate (k / bits + 1) 0, left := [0],
        vec_index := k / bits, bit_index := k % bits,
        half := TapeMotion.Right } := by
  induction k with
  | zero =>
    simp [Tape.moveRep, Tape.new, Nat.zero_div, Nat.zero_mod, List.replicate]
  | succ n ih =>
    rw [Tape.moveRep, ih]
    dsimp only [Tape.move_tape]
    by_cases hb : n % bits = bits - 1
    · rw [if_pos hb]
      obtain ⟨hd, hm⟩ := succ_div_eq bits n h0 hb
      rw [if_pos (by simp)]
      rw [hd, hm]
      congr 1
      rw [← List.replicate_succ']
    · rw [if_neg hb]
      obtain ⟨hd, hm⟩ := succ_div_ne bits n h0 hb
      rw [hd, hm]

theorem moveRep_left_char (bits : Nat) (h0 : 0 < bits) (k : Nat) :
    Tape.moveRep bits TapeMotion.Left (k + 1) =
      { right := [0], left := List.replicate (k / bits + 1) 0,
        vec_index := k / bits, bit_index := k % bits,
        half := TapeMotion.Left } := by
  induction k with
  | zero =>
    simp [Tape.moveRep, Tape.new, Tape.move_tape, List.replicate]
  | succ n ih =>
    rw [Tape.moveRep, ih]
    dsimp only [Tape.move_tape]
    by_cases hb : n % bits = bits - 1
    · rw [if_pos hb]
      obtain ⟨hd, hm⟩ := succ_div_eq bits n h0 hb
      rw [if_pos (by simp)]
      rw [hd, hm]
      congr 1
      rw [← List.replicate_succ']
    · rw [if_neg hb]
      obtain ⟨hd, hm⟩ := succ_div_ne bits n h0 hb
      rw [hd, hm]

/-- C9 counterexample: the claim says `k` moves in one fixed direction grow
the moved-into half's block count to exactly `ceil((k + 1) / W)` for both
directions; for the `Left` direction at `W = 8`, `k = 8` the left half still
has 1 block while `ceil((8 + 1) / 8) = (8 + 1 + (8 - 1)) / 8 = 2`. -/
theorem claim_C9_cex :
    (Tape.moveRep 8 TapeMotion.Left 8).left.length ≠ (8 + 1 + (8 - 1)) / 8 := by
  decide

/-- C9 amended: starting from a fresh tape, `k` moves in the `Right`
direction leave the left half at 1 block and grow the right half to exactly
`ceil((k + 1) / W)` blocks; `k` moves in the `Left` direction leave the
right half at 1 block and grow the left half to `ceil(k / W)` blocks for
`k ≥ 1` (and 1 block at `k = 0`), because the first left move only crosses
the origin into the already-allocated left block. -/
theorem claim_C9_amended (bits k : Nat) (h0 : 0 < bits) :
    ((Tape.moveRep bits TapeMotion.Right k).right.length = (k + 1 + (bits - 1)) / bits ∧
     (Tape.moveRep bits TapeMotion.Right k).left.length = 1) ∧
    ((Tape.moveRep bits TapeMotion.Left k).right.length = 1 ∧
     (Tape.moveRep bits TapeMotion.Left k).left.length
        = if k = 0 then 1 else (k + (bits - 1)) / bits) := by
  refine ⟨⟨?_, ?_⟩, ?_, ?_⟩
  · rw [moveRep_right_char bits h0 k]
    dsimp only
    rw [List.length_replicate]
    have h1 : k + 1 + (bits - 1) = k + bits := by omega
    rw [h1, Nat.add_div_right _ h0]
  · rw [moveRep_right_char bits h0 k]
    rfl
  · cases k with
    | zero => simp [Tape.moveRep, Tape.new]
    | succ n =>
      rw [moveRep_left_char bits h0 n]
      rfl
  · cases k with
    | zero => simp [Tape.moveRep, Tape.new]
    | succ n =>
      rw [moveRep_left_char bits h0 n]
      dsimp only
      rw [List.length_replicate, if_neg (Nat.succ_ne_zero n)]
      have h1 : n + 1 + (bits - 1) = n + bits := by omega
      rw [h1, Nat.add_div_right _ h0]

/-- C9 witness at `W = 8`, `k = 8`. -/
theorem claim_C9_amended_witness :
    ((Tape.moveRep 8 TapeMotion.Right 8).right.length = (8 + 1 + (8 - 1)) / 8 ∧
     (Tape.moveRep 8 TapeMotion.Right 8).left.length = 1) ∧
    ((Tape.moveRep 8 TapeMotion.Left 8).right.length = 1 ∧
     (Tape.moveRep 8 TapeMotion.Left 8).left.length
        = if (8 : Nat) = 0 then 1 else (8 + (8 - 1)) / 8) :=
  claim_C9_amended 8 8 (by decide)

/-! Helper lemmas for the single-cell frame property of `step`. -/

theorem get_bit_eq_testBit (x p : Nat) :
    get_bit x p = if x.testBit p then Bit.One else Bit.Zero := by
  rw [get_bit, Nat.one_shiftLeft, Nat.and_two_pow]
  cases h : x.testBit p
  · simp [h]
  · simp [h, Nat.pos_iff_ne_zero.mp (Nat.two_pow_pos p)]

theorem get_bit_set_bit_ne (bits x p q : Nat) (b : Bit) (hq : q < bits)
    (hne : q ≠ p) : get_bit (set_bit bits x p b) q = get_bit x q := by
  have ht : (set_bit bits x p b).testBit q = x.testBit q := by
    cases b <;>
      simp [set_bit, Nat.testBit_and, Nat.testBit_xor, Nat.testBit_or,
        Nat.one_shiftLeft, Nat.testBit_two_pow, Nat.testBit_two_pow_sub_one,
        hq, Ne.symm hne]
  rw [get_bit_eq_testBit, get_bit_eq_testBit, ht]

theorem get_bit_set_bit_eq (bits x p : Nat) (b : Bit) (hp : p < bits) :
    get_bit (set_bit bits x p b) p = b := by
  cases b <;>
    simp [set_bit, get_bit_eq_testBit, Nat.testBit_and, Nat.testBit_xor,
      Nat.testBit_or, Nat.one_shiftLeft, Nat.testBit_two_pow,
      Nat.testBit_two_pow_sub_one, hp]

theorem getD_append_zero (l : List Nat) (i : Nat) :
    (l ++ [0]).getD i 0 = l.getD i 0 := by
  rw [List.getD_eq_getElem?_getD, List.getD_eq_getElem?_getD]
  by_cases h : i < l.length
  · rw [List.getElem?_append_left h]
  · have hr : l[i]? = none := List.getElem?_eq_none (by omega)
    have hl2 : (l ++ [0])[i]? = [0][i - l.length]? :=
      List.getElem?_append_right (by omega)
    rw [hr, hl2]
    rcases h2 : i - l.length with _ | m <;> simp

theorem read_at_congr (bits : Nat) {t1 t2 : Tape}
    (h1 : ∀ i, t1.right.getD i 0 = t2.right.getD i 0)
    (h2 : ∀ i, t1.left.getD i 0 = t2.left.getD i 0) (pos : Int) :
    Tape.read_at bits t1 pos = Tape.read_at bits t2 pos := by
  rw [Tape.read_at, Tape.read_at]
  by_cases hp : 0 ≤ pos
  · rw [if_pos hp, if_pos hp, h1]
  · rw [if_neg hp, if_neg hp, h2]

theorem read_at_move (bits : Nat) (t : Tape) (m : TapeMotion) (pos : Int) :
    Tape.read_at bits (Tape.move_tape bits t m) pos = Tape.read_at bits t pos := by
  rcases t with ⟨right, left, v, b, half⟩
  cases half <;> cases m <;> dsimp only [Tape.move_tape] <;> (repeat' split) <;>
    apply read_at_congr <;> intro i <;>
    first
      | rfl
      | (dsimp only; rw [getD_append_zero])

theorem set_block_read (bits : Nat) (h0 : 0 < bits) (l : List Nat) (v bi : Nat)
    (b : Bit) (hv : v < l.length) (hb : bi < bits) :
    (∀ q : Nat, q ≠ v * bits + bi →
      get_bit ((l.set v (set_bit bits (l.get ⟨v, hv⟩) bi b)).getD (q / bits) 0)
          (q % bits)
        = get_bit (l.getD (q / bits) 0) (q % bits)) ∧
    get_bit ((l.set v (set_bit bits (l.get ⟨v, hv⟩) bi b)).getD
        ((v * bits + bi) / bits) 0) ((v * bits + bi) % bits) = b := by
  have hdiv : (v * bits + bi) / bits = v := by
    rw [Nat.mul_comm v bits, Nat.mul_add_div h0, Nat.div_eq_of_lt hb]
    omega
  have hmod : (v * bits + bi) % bits = bi := by
    rw [Nat.mul_comm v bits, Nat.mul_add_mod, Nat.mod_eq_of_lt hb]
  have hgd : (l.set v (set_bit bits (l.get ⟨v, hv⟩) bi b)).getD v 0
      = set_bit bits (l.get ⟨v, hv⟩) bi b := by
    rw [List.getD_eq_getElem?_getD, List.getElem?_set_self (by simpa using hv)]
    rfl
  constructor
  · intro q hq
    by_cases hqv : q / bits = v
    · have hbne : q % bits ≠ bi := by
        intro hEq
        apply hq
        have hdm := Nat.div_add_mod q bits
        rw [hqv, hEq, Nat.mul_comm bits v] at hdm
        omega
      rw [hqv, hgd]
      have hrd : l.getD v 0 = l.get ⟨v, hv⟩ := by
        rw [List.getD_eq_getElem?_getD, List.getElem?_eq_getElem hv]
        rfl
      rw [hrd]
      exact get_bit_set_bit_ne bits _ bi (q % bits) b (Nat.mod_lt _ h0) hbne
    · have hne2 : v ≠ q / bits := fun h => hqv h.symm
      rw [List.getD_eq_getElem?_getD, List.getD_eq_getElem?_getD,
        List.getElem?_set_ne hne2]
  · rw [hdiv, hmod, hgd]
    exact get_bit_set_bit_eq bits _ bi b hb

theorem read_at_set (bits k : Nat) (hpow : bits = 2 ^ k) {t t1 : Tape} {b : Bit}
    (hi : Tape.Inv bits t) (hs : Tape.set bits t b = some t1) :
    Tape.read_at bits t1 (Tape.get_index bits t) = b ∧
    ∀ pos : Int, pos ≠ Tape.get_index bits t →
      Tape.read_at bits t1 pos = Tape.read_at bits t pos := by
  have h0 : 0 < bits := by rw [hpow]; exact Nat.two_pow_pos k
  obtain ⟨hl, hr2, hv, hb⟩ := hi
  have hlog : Nat.log2 bits = k := by rw [hpow, Nat.log2_two_pow]
  rcases t with ⟨right, left, v, bi, half⟩
  dsimp only at hv hb
  have hP : (v <<< k ||| bi : Nat) = v * bits + bi := by
    rw [shiftLeft_lor_eq_add v k bi (by omega), hpow]
  cases half
  case Right =>
    dsimp only [Tape.set] at hs
    rw [List.get?_eq_get hv] at hs
    have ht1 := (Option.some.inj hs).symm
    subst ht1
    obtain ⟨hframe, hhit⟩ := set_block_read bits h0 right v bi b hv hb
    have hidx : Tape.get_index bits
        { right := right, left := left, vec_index := v, bit_index := bi,
          half := TapeMotion.Right } = ((v * bits + bi : Nat) : Int) := by
      dsimp only [Tape.get_index]
      rw [hlog, hP]
    rw [hidx]
    constructor
    · dsimp only [Tape.read_at]
      rw [if_pos (by omega)]
      have htn : ((v * bits + bi : Nat) : Int).toNat = v * bits + bi := by omega
      rw [htn]
      exact hhit
    · intro pos hne
      by_cases hp : 0 ≤ pos
      · dsimp only [Tape.read_at]
        rw [if_pos hp, if_pos hp]
        have hqne : pos.toNat ≠ v * bits + bi := by omega
        exact hframe pos.toNat hqne
      · dsimp only [Tape.read_at]
        rw [if_neg hp, if_neg hp]
  case Left =>
    dsimp only [Tape.set] at hs
    rw [List.get?_eq_get hv] at hs
    have ht1 := (Option.some.inj hs).symm
    subst ht1
    obtain ⟨hframe, hhit⟩ := set_block_read bits h0 left v bi b hv hb
    have hidx : Tape.get_index bits
        { right := right, left := left, vec_index := v, bit_index := bi,
          half := TapeMotion.Left } = -(((v * bits + bi : Nat) : Int) + 1) := by
      dsimp only [Tape.get_index]
      rw [hlog, hP]
    rw [hidx]
    constructor
    · dsimp only [Tape.read_at]
      rw [if_neg (by omega)]
      have htn : (-(-(((v * bits + bi : Nat) : Int) + 1) + 1)).toNat
          = v * bits + bi := by omega
      rw [htn]
      exact hhit
    · intro pos hne
      by_cases hp : 0 ≤ pos
      · dsimp only [Tape.read_at]
        rw [if_pos hp, if_pos hp]
      · dsimp only [Tape.read_at]
        rw [if_neg hp, if_neg hp]
        have hqne : (-(pos + 1)).toNat ≠ v * bits + bi := by omega
        exact hframe (-(pos + 1)).toNat hqne

/-- C8: one `step` at a valid state on a reachable tape succeeds and changes
at most the single cell that was under the cursor, where it writes the
transition's print bit; every other logical tape position, including all
cells of any block appended by the move, reads the same bit as before. -/
theorem claim_C8 (bits k : Nat) (tm : TuringMachine) (t : Tape) (s : Nat)
    (hpow : bits = 2 ^ k) (hr : Tape.Reachable bits t)
    (hs : s < tm.states.length) :
    ∃ tm1 t1, TuringMachine.step bits tm t s = some (tm1, t1) ∧
      (∀ pos : Int, pos ≠ Tape.get_index bits t →
        Tape.read_at bits t1 pos = Tape.read_at bits t pos) ∧
      (∀ ts b0, tm.states.get? s = some ts → Tape.get t = some b0 →
        Tape.read_at bits t1 (Tape.get_index bits t)
          = (match b0 with
             | Bit.Zero => ts.zero
             | Bit.One => ts.one).print) := by
  have h0 : 0 < bits := by rw [hpow]; exact Nat.two_pow_pos k
  have hi := reachable_inv h0 hr
  obtain ⟨b0, hb0⟩ := Option.isSome_iff_exists.mp (get_isSome_of_inv hi)
  have hts : tm.states.get? s = some (tm.states.get ⟨s, hs⟩) := List.get?_eq_get hs
  set stp := (match b0 with
    | Bit.Zero => (tm.states.get ⟨s, hs⟩).zero
    | Bit.One => (tm.states.get ⟨s, hs⟩).one) with hstp
  obtain ⟨tset, htset⟩ :=
    Option.isSome_iff_exists.mp (set_isSome_of_inv stp.print hi)
  refine ⟨{ tm with state := stp.next_state },
    Tape.move_tape bits tset stp.motion, ?_, ?_, ?_⟩
  · rw [TuringMachine.step, hb0, hts]
    dsimp only
    rw [← hstp, htset]
  · intro pos hne
    rw [read_at_move]
    exact (read_at_set bits k hpow hi htset).2 pos hne
  · intro ts b1 hts1 hb1
    rw [hts] at hts1
    rw [hb0] at hb1
    cases Option.some.inj hts1
    cases Option.some.inj hb1
    rw [read_at_move]
    exact (read_at_set bits k hpow hi htset).1

/-- C8 witness: the example machine at `bits = 8 = 2 ^ 3` on the fresh
tape. -/
theorem claim_C8_witness :
    ∃ tm1 t1, TuringMachine.step 8 exM1 Tape.new 0 = some (tm1, t1) ∧
      (∀ pos : Int, pos ≠ Tape.get_index 8 Tape.new →
        Tape.read_at 8 t1 pos = Tape.read_at 8 Tape.new pos) ∧
      (∀ ts b0, exM1.states.get? 0 = some ts → Tape.get Tape.new = some b0 →
        Tape.read_at 8 t1 (Tape.get_index 8 Tape.new)
          = (match b0 with
             | Bit.Zero => ts.zero
             | Bit.One => ts.one).print) :=
  claim_C8 8 3 exM1 Tape.new 0 (by decide) Tape.Reachable.new (by decide)

/-! Helper lemmas for the compiled lookup table. -/

theorem num_steps_eq (n bits : Nat) : (n * 2 * 1) <<< bits = n * 2 * 2 ^ bits := by
  rw [Nat.shiftLeft_eq]
  ring

theorem flat_decomp (bits s c : Nat) (e : Bool) (hc : c < 2 ^ bits) :
    (flat_index bits s c e) >>> (bits + 1) = s ∧
    (flat_index bits s c e) &&& (2 ^ bits - 1) = c ∧
    (flat_index bits s c e) &&& (1 <<< bits) = (if e then 2 ^ bits else 0) := by
  have hB : 0 < 2 ^ bits := Nat.two_pow_pos bits
  have hB1 : 0 < 2 ^ (bits + 1) := Nat.two_pow_pos (bits + 1)
  have hpow : (2 : Nat) ^ (bits + 1) = 2 ^ bits * 2 := pow_succ 2 bits
  refine ⟨?_, ?_, ?_⟩
  · rw [flat_index, Nat.shiftRight_eq_div_pow, Nat.add_assoc,
      Nat.mul_comm s (2 ^ (bits + 1)), Nat.mul_add_div hB1,
      Nat.div_eq_of_lt (by cases e <;> simp <;> omega)]
    omega
  · rw [flat_index, Nat.and_pow_two_sub_one_eq_mod]
    have h1 : s * 2 ^ (bits + 1) + (if e then 2 ^ bits else 0) + c
        = 2 ^ bits * (s * 2 + (if e then 1 else 0)) + c := by
      cases e <;> simp <;> rw [hpow] <;> ring
    rw [h1, Nat.mul_add_mod, Nat.mod_eq_of_lt hc]
  · rw [flat_index, Nat.one_shiftLeft, Nat.and_two_pow]
    have h1 : s * 2 ^ (bits + 1) + (if e then 2 ^ bits else 0) + c
        = 2 ^ bits * (s * 2 + (if e then 1 else 0)) + c := by
      cases e <;> simp <;> rw [hpow] <;> ring
    have h2 : (s * 2 ^ (bits + 1) + (if e then 2 ^ bits else 0) + c) / 2 ^ bits
        = s * 2 + (if e then 1 else 0) := by
      rw [h1, Nat.mul_add_div hB, Nat.div_eq_of_lt hc]
      omega
    rw [Nat.testBit_to_div_mod, h2]
    cases e
    · have hm : (s * 2 + 0) % 2 = 0 := by omega
      simp [hm]
    · have hm : (s * 2 + 1) % 2 = 1 := by omega
      simp [hm]

theorem flat_lt (bits s c n : Nat) (e : Bool) (hs : s < n) (hc : c < 2 ^ bits) :
    flat_index bits s c e < n * 2 * 2 ^ bits := by
  have hB : 0 < 2 ^ bits := Nat.two_pow_pos bits
  have hpow : (2 : Nat) ^ (bits + 1) = 2 ^ bits * 2 := pow_succ 2 bits
  have h1 : s * 2 ^ (bits + 1) + 2 ^ (bits + 1) ≤ n * 2 ^ (bits + 1) := by
    have := Nat.mul_le_mul_right (2 ^ (bits + 1)) (Nat.succ_le_of_lt hs)
    rw [Nat.succ_mul] at this
    exact this
  have h2 : n * 2 * 2 ^ bits = n * 2 ^ (bits + 1) := by
    rw [hpow]
    ring
  rw [flat_index, h2]
  have h3 : (if e then 2 ^ bits else 0) + c < 2 ^ (bits + 1) := by
    cases e <;> simp <;> omega
  omega

theorem flat_recomp (bits i : Nat) :
    flat_index bits (i >>> (bits + 1)) (i &&& (2 ^ bits - 1))
      (decide (i &&& (1 <<< bits) ≠ 0)) = i := by
  have hB : 0 < 2 ^ bits := Nat.two_pow_pos bits
  have hpow : (2 : Nat) ^ (bits + 1) = 2 ^ bits * 2 := pow_succ 2 bits
  have hsr : i >>> (bits + 1) = i / 2 ^ bits / 2 := by
    rw [Nat.shiftRight_eq_div_pow, hpow, Nat.div_div_eq_div_mul]
  have hmask : i &&& (2 ^ bits - 1) = i % 2 ^ bits :=
    Nat.and_pow_two_sub_one_eq_mod i bits
  have hand : i &&& (1 <<< bits) = (i.testBit bits).toNat * 2 ^ bits := by
    rw [Nat.one_shiftLeft, Nat.and_two_pow]
  have htb : i.testBit bits = decide (i / 2 ^ bits % 2 = 1) :=
    Nat.testBit_to_div_mod
  have hi : 2 ^ bits * (i / 2 ^ bits) + i % 2 ^ bits = i :=
    Nat.div_add_mod i (2 ^ bits)
  have hq : 2 * (i / 2 ^ bits / 2) + i / 2 ^ bits % 2 = i / 2 ^ bits :=
    Nat.div_add_mod (i / 2 ^ bits) 2
  have hy : (i / 2 ^ bits / 2) * 2 ^ (bits + 1)
      = 2 ^ bits * (i / 2 ^ bits / 2) * 2 := by
    rw [hpow]
    ring
  rw [flat_index, hsr, hmask, hand, htb]
  by_cases h2 : i / 2 ^ bits % 2 = 1
  · have hd : (decide ((decide (i / 2 ^ bits % 2 = 1)).toNat * 2 ^ bits ≠ 0))
        = true := by
      simp [h2]
    rw [hd]
    have he : i / 2 ^ bits = 2 * (i / 2 ^ bits / 2) + 1 := by omega
    have hz : 2 ^ bits * (i / 2 ^ bits)
        = 2 ^ bits * (i / 2 ^ bits / 2) * 2 + 2 ^ bits := by
      conv_lhs => rw [he]
      ring
    simp only [if_true]
    omega
  · have hd : (decide ((decide (i / 2 ^ bits % 2 = 1)).toNat * 2 ^ bits ≠ 0))
        = false := by
      simp [h2]
    rw [hd]
    have he : i / 2 ^ bits = 2 * (i / 2 ^ bits / 2) := by omega
    have hz : 2 ^ bits * (i / 2 ^ bits)
        = 2 ^ bits * (i / 2 ^ bits / 2) * 2 := by
      conv_lhs => rw [he]
      ring
    simp only [Bool.false_eq_true, if_false]
    omega

theorem compileEntry_eq_entry_for (bits fuel i : Nat) (tm : TuringMachine) :
    compileEntry bits tm fuel i
      = entry_for bits tm fuel (i >>> (bits + 1)) (i &&& (2 ^ bits - 1))
          (decide (i &&& (1 <<< bits) ≠ 0)) := by
  rw [compileEntry, entry_for]
  by_cases h : i &&& (1 <<< bits) = 0 <;> simp [h]

theorem compileEntry_flat (bits fuel s c : Nat) (e : Bool) (tm : TuringMachine)
    (hc : c < 2 ^ bits) :
    compileEntry bits tm fuel (flat_index bits s c e)
      = entry_for bits tm fuel s c e := by
  obtain ⟨h1, h2, h3⟩ := flat_decomp bits s c e hc
  rw [compileEntry_eq_entry_for, h1, h2, h3]
  cases e
  · simp
  · simp [Nat.pos_iff_ne_zero.mp (Nat.two_pow_pos bits)]

theorem compile_some (bits fuel : Nat) (tm : TuringMachine)
    (lut : List (Option (Nat × Nat))) (hc : compile bits tm fuel = some lut) :
    tm.states.length < 127 ∧
    lut = (List.range ((tm.states.length * 2 * 1) <<< bits)).map
      (compileEntry bits tm fuel) := by
  rw [compile] at hc
  by_cases h : tm.states.length < 127
  · rw [if_pos h] at hc
    exact ⟨h, (Option.some.inj hc).symm⟩
  · rw [if_neg h] at hc
    cases hc

theorem get_state_ne_halt {ds : Nat} (h : ds >>> 1 ≠ 127) : get_state ds ≠ -1 := by
  simp only [get_state]
  rw [if_neg h]
  omega

theorem get_state_eq_halt {ds : Nat} (h : ds >>> 1 = 127) : get_state ds = -1 := by
  simp only [get_state]
  rw [if_pos h]

/-- The inner compile loop refines the spec-side block run: whenever the run
described by the spec terminates, the loop from the source terminates with
the same final block content, the matching machine state, and an exit flag
recording the departed edge whenever the run exited. -/
theorem compileLoop_spec (bits : Nat) (tm : TuringMachine) :
    ∀ fuel tape pos s c1 out,
      specBlockRun bits tm fuel tape pos s = some (c1, out) →
      ∃ ex, compileLoop bits tm fuel tape pos (State.Index s) none
          = some (c1, outState out, ex) ∧
        ∀ d s1, out = BlockOutcome.exited d s1 → ex = some d := by
  intro fuel
  induction fuel with
  | zero =>
    intro tape pos s c1 out h
    simp only [specBlockRun] at h
    exact Option.noConfusion h
  | succ n ih =>
    intro tape pos s c1 out h
    simp only [specBlockRun] at h
    simp only [compileLoop]
    cases hts : tm.states.get? s with
    | none =>
      rw [hts] at h
      simp at h
    | some ts =>
      rw [hts] at h
      obtain ⟨⟨pr0, mo0, ns0⟩, ⟨pr1, mo1, ns1⟩⟩ := ts
      cases hgb : get_bit tape pos
      case Zero =>
        simp only [hgb] at h
        dsimp only at h ⊢
        cases ns0 with
        | HALT =>
          cases h
          cases mo0 with
          | Left =>
            dsimp only [outState]
            by_cases hp : pos = bits - 1
            · rw [if_pos hp]
              exact ⟨some TapeMotion.Left, rfl, fun d s1 hcon => by cases hcon⟩
            · rw [if_neg hp, compileLoop.eq_def]
              exact ⟨none, rfl, fun d s1 hcon => by cases hcon⟩
          | Right =>
            dsimp only [outState]
            by_cases hp : pos = 0
            · rw [if_pos hp]
              exact ⟨some TapeMotion.Right, rfl, fun d s1 hcon => by cases hcon⟩
            · rw [if_neg hp, compileLoop.eq_def]
              exact ⟨none, rfl, fun d s1 hcon => by cases hcon⟩
        | Index s1 =>
          cases mo0 with
          | Left =>
            dsimp only [outState] at h ⊢
            by_cases hp : pos = bits - 1
            · rw [if_pos hp] at h ⊢
              cases h
              refine ⟨some TapeMotion.Left, rfl, ?_⟩
              intro d s2 hEq
              cases hEq
              rfl
            · rw [if_neg hp] at h ⊢
              exact ih _ _ _ _ _ h
          | Right =>
            dsimp only [outState] at h ⊢
            by_cases hp : pos = 0
            · rw [if_pos hp] at h ⊢
              cases h
              refine ⟨some TapeMotion.Right, rfl, ?_⟩
              intro d s2 hEq
              cases hEq
              rfl
            · rw [if_neg hp] at h ⊢
              exact ih _ _ _ _ _ h
      case One =>
        simp only [hgb] at h
        dsimp only at h ⊢
        cases ns1 with
        | HALT =>
          cases h
          cases mo1 with
          | Left =>
            dsimp only [outState]
            by_cases hp : pos = bits - 1
            · rw [if_pos hp]
              exact ⟨some TapeMotion.Left, rfl, fun d s1 hcon => by cases hcon⟩
            · rw [if_neg hp, compileLoop.eq_def]
              exact ⟨none, rfl, fun d s1 hcon => by cases hcon⟩
          | Right =>
            dsimp only [outState]
            by_cases hp : pos = 0
            · rw [if_pos hp]
              exact ⟨some TapeMotion.Right, rfl, fun d s1 hcon => by cases hcon⟩
            · rw [if_neg hp, compileLoop.eq_def]
              exact ⟨none, rfl, fun d s1 hcon => by cases hcon⟩
        | Index s1 =>
          cases mo1 with
          | Left =>
            dsimp only [outState] at h ⊢
            by_cases hp : pos = bits - 1
            · rw [if_pos hp] at h ⊢
              cases h
              refine ⟨some TapeMotion.Left, rfl, ?_⟩
              intro d s2 hEq
              cases hEq
              rfl
            · rw [if_neg hp] at h ⊢
              exact ih _ _ _ _ _ h
          | Right =>
            dsimp only [outState] at h ⊢
            by_cases hp : pos = 0
            · rw [if_pos hp] at h ⊢
              cases h
              refine ⟨some TapeMotion.Right, rfl, ?_⟩
              intro d s2 hEq
              cases hEq
              rfl
            · rw [if_neg hp] at h ⊢
              exact ih _ _ _ _ _ h

/-- C1: for every state `s`, block content `c < 2 ^ W` and entry side `e`,
if the raw single-step transition logic run on an isolated `W`-bit block
(per the spec-side `specBlockRun`, entering at `W - 1` for a Left entry and
`0` for a Right entry) terminates, then the compiled entry at the flat index
of `(s, c, e)` holds exactly the run's final block content, and its packed
field decodes as halted when the run halted, and equals the packing of the
resulting state with the exit-side bit when the run departed an edge. -/
theorem claim_C1 (bits fuel s c : Nat) (e : Bool) (tm : TuringMachine)
    (c1 : Nat) (out : BlockOutcome) (hc : c < 2 ^ bits)
    (hrun : specBlockRun bits tm fuel c (if e then 0 else bits - 1) s
      = some (c1, out)) :
    ∃ ds, compileEntry bits tm fuel (flat_index bits s c e) = some (c1, ds) ∧
      (out = BlockOutcome.halted → get_state ds = -1) ∧
      (∀ d s1, out = BlockOutcome.exited d s1 →
        ds = (s1 % 256) ||| (match d with
          | TapeMotion.Left => 1
          | TapeMotion.Right => 0)) := by
  rw [compileEntry_flat bits fuel s c e tm hc]
  obtain ⟨ex, hloop, hex⟩ := compileLoop_spec bits tm fuel c _ s c1 out hrun
  rw [entry_for, hloop]
  dsimp only
  refine ⟨encodeDirState (outState out) ex, rfl, ?_, ?_⟩
  · intro hout
    subst hout
    apply get_state_eq_halt
    rcases ex with _ | d
    · decide
    · cases d <;> decide
  · intro d s1 hout
    subst hout
    rw [hex d s1 rfl]
    cases d <;> rfl

/-- C1 witness: the one-state halting machine at `W = 2`, entry
`(s = 0, c = 0, e = Right)`. -/
theorem claim_C1_witness :
    ∃ ds, compileEntry 2 exM1 1 (flat_index 2 0 0 true) = some (1, ds) ∧
      (BlockOutcome.halted = BlockOutcome.halted → get_state ds = -1) ∧
      (∀ d s1, BlockOutcome.halted = BlockOutcome.exited d s1 →
        ds = (s1 % 256) ||| (match d with
          | TapeMotion.Left => 1
          | TapeMotion.Right => 0)) :=
  claim_C1 2 1 0 0 true exM1 1 BlockOutcome.halted (by decide) (by decide)

/-- C2: evaluation exhibiting the encoder/decoder mismatch.  For `exM3`, the
in-block run from `(state 0, content 0, entered Right)` exits on the Right
into state 2, and the entry stores `direction_state = 2` (the state index
OR'd in unshifted); `get_state` then returns `1`, not the recorded state
`2`, and `get_direction` returns `Left` although the encoder wrote low bit
`0` for this Right exit. -/
theorem claim_C2_eval :
    compileEntry 2 exM3 1 (flat_index 2 0 0 true) = some (0, 2) ∧
    get_state 2 = 1 ∧ get_direction 2 = TapeMotion.Left := by
  decide

/-- C3: a successful `compile` builds exactly `N * 2 * 2 ^ W` entries; the
entry at flat index `i` is the keyed result for state `i >>> (W + 1)`, entry
side bit `W` of `i` (zero: entered from the left at position `W - 1`;
non-zero: from the right at `0`) and content the low `W` bits of `i`; and
flat indexing is a bijection, so every `(state, content, side)` combination
is covered exactly once. -/
theorem claim_C3 (bits fuel : Nat) (tm : TuringMachine)
    (lut : List (Option (Nat × Nat))) (hc : compile bits tm fuel = some lut) :
    lut.length = tm.states.length * 2 * 2 ^ bits ∧
    (∀ i, i < tm.states.length * 2 * 2 ^ bits →
      lut.get? i = some (entry_for bits tm fuel (i >>> (bits + 1))
        (i &&& (2 ^ bits - 1)) (decide (i &&& (1 <<< bits) ≠ 0)))) ∧
    (∀ s c : Nat, ∀ e : Bool, s < tm.states.length → c < 2 ^ bits →
      flat_index bits s c e < tm.states.length * 2 * 2 ^ bits ∧
      (flat_index bits s c e) >>> (bits + 1) = s ∧
      (flat_index bits s c e) &&& (2 ^ bits - 1) = c ∧
      ((flat_index bits s c e) &&& (1 <<< bits) ≠ 0 ↔ e = true)) ∧
    (∀ i : Nat, flat_index bits (i >>> (bits + 1)) (i &&& (2 ^ bits - 1))
        (decide (i &&& (1 <<< bits) ≠ 0)) = i) := by
  obtain ⟨hN, hlut⟩ := compile_some bits fuel tm lut hc
  refine ⟨?_, ?_, ?_, fun i => flat_recomp bits i⟩
  · rw [hlut, List.length_map, List.length_range, num_steps_eq]
  · intro i hi
    rw [hlut, List.get?_map, List.get?_range (by rw [num_steps_eq]; exact hi)]
    rw [Option.map_some']
    rw [compileEntry_eq_entry_for]
  · intro s c e hs hcb
    obtain ⟨h1, h2, h3⟩ := flat_decomp bits s c e hcb
    refine ⟨flat_lt bits s c tm.states.length e hs hcb, h1, h2, ?_⟩
    rw [h3]
    cases e
    · simp
    · simp [Nat.pos_iff_ne_zero.mp (Nat.two_pow_pos bits)]

/-- C3 witness: the one-state example machine at `W = 1`. -/
theorem claim_C3_witness :
    exLut.length = exM1.states.length * 2 * 2 ^ 1 ∧
    (∀ i, i < exM1.states.length * 2 * 2 ^ 1 →
      exLut.get? i = some (entry_for 1 exM1 2 (i >>> (1 + 1))
        (i &&& (2 ^ 1 - 1)) (decide (i &&& (1 <<< 1) ≠ 0)))) ∧
    (∀ s c : Nat, ∀ e : Bool, s < exM1.states.length → c < 2 ^ 1 →
      flat_index 1 s c e < exM1.states.length * 2 * 2 ^ 1 ∧
      (flat_index 1 s c e) >>> (1 + 1) = s ∧
      (flat_index 1 s c e) &&& (2 ^ 1 - 1) = c ∧
      ((flat_index 1 s c e) &&& (1 <<< 1) ≠ 0 ↔ e = true)) ∧
    (∀ i : Nat, flat_index 1 (i >>> (1 + 1)) (i &&& (2 ^ 1 - 1))
        (decide (i &&& (1 <<< 1) ≠ 0)) = i) :=
  claim_C3 1 2 exM1 exLut (by decide)

/-- C4: when the transition taken at a block edge both moves out of the
block and halts, the compile loop stops that same iteration: the stored
content is the block just after that transition's single write (no further
writes), the exit flag records the coinciding edge, and the packed byte
built from the `HALT` state decodes as halted (`get_state = -1`), so
halting takes precedence over the coinciding edge exit. -/
theorem claim_C4 (bits fuel tape pos s : Nat) (tm : TuringMachine)
    (ts : TuringState) (stp : TuringStep)
    (hts : tm.states.get? s = some ts)
    (hstp : (match get_bit tape pos with
      | Bit.Zero => ts.zero
      | Bit.One => ts.one) = stp)
    (hhalt : stp.next_state = State.HALT)
    (hedge : (stp.motion = TapeMotion.Left ∧ pos = bits - 1) ∨
             (stp.motion = TapeMotion.Right ∧ pos = 0)) :
    ∃ d, compileLoop bits tm (fuel + 1) tape pos (State.Index s) none
        = some (set_bit bits tape pos stp.print, State.HALT, some d) ∧
      get_state (encodeDirState State.HALT (some d)) = -1 := by
  cases hgb : get_bit tape pos
  case Zero =>
    rw [hgb] at hstp
    dsimp only at hstp
    subst hstp
    simp only [compileLoop]
    rw [hts]
    dsimp only
    rw [hgb]
    dsimp only
    rcases hedge with ⟨hm, hp⟩ | ⟨hm, hp⟩
    · rw [hm]
      dsimp only
      rw [if_pos hp, hhalt]
      exact ⟨TapeMotion.Left, rfl, by decide⟩
    · rw [hm]
      dsimp only
      rw [if_pos hp, hhalt]
      exact ⟨TapeMotion.Right, rfl, by decide⟩
  case One =>
    rw [hgb] at hstp
    dsimp only at hstp
    subst hstp
    simp only [compileLoop]
    rw [hts]
    dsimp only
    rw [hgb]
    dsimp only
    rcases hedge with ⟨hm, hp⟩ | ⟨hm, hp⟩
    · rw [hm]
      dsimp only
      rw [if_pos hp, hhalt]
      exact ⟨TapeMotion.Left, rfl, by decide⟩
    · rw [hm]
      dsimp only
      rw [if_pos hp, hhalt]
      exact ⟨TapeMotion.Right, rfl, by decide⟩

/-- C4 witness: the one-state halting machine, whose transition at the right
edge both exits Right and halts. -/
theorem claim_C4_witness :
    ∃ d, compileLoop 2 exM1 1 0 0 (State.Index 0) none
        = some (set_bit 2 0 0 Bit.One, State.HALT, some d) ∧
      get_state (encodeDirState State.HALT (some d)) = -1 :=
  claim_C4 2 0 0 0 0 exM1
    { zero := { print := Bit.One, motion := TapeMotion.Right,
                next_state := State.HALT },
      one := { print := Bit.One, motion := TapeMotion.Right,
               next_state := State.HALT } }
    { print := Bit.One, motion := TapeMotion.Right, next_state := State.HALT }
    (by decide) (by decide) (by decide) (Or.inr ⟨rfl, rfl⟩)

/-- C5: `compile` fails its construction-time assertion exactly when
`N ≥ 127` (`assert!(N < i8::MAX as usize)`), and for live states below any
`N < 127` the packed byte can never decode as the halt sentinel. -/
theorem claim_C5 (bits fuel : Nat) (tm : TuringMachine) :
    (compile bits tm fuel = none ↔ 127 ≤ tm.states.length) ∧
    (∀ s : Nat, ∀ ex : Option TapeMotion, s < tm.states.length →
      tm.states.length < 127 →
      get_state (encodeDirState (State.Index s) ex) ≠ -1) := by
  constructor
  · rw [compile]
    by_cases h : tm.states.length < 127
    · rw [if_pos h]
      simp
      omega
    · rw [if_neg h]
      simp
      omega
  · intro s ex hs hN
    have hmod : s % 256 = s := Nat.mod_eq_of_lt (by omega)
    have hs7 : s < 2 ^ 7 := by omega
    have key : ∀ eb : Nat, eb < 2 ^ 7 → get_state ((s % 256) ||| eb) ≠ -1 := by
      intro eb heb
      have hlt : (s % 256) ||| eb < 128 := by
        rw [hmod]
        exact Nat.or_lt_two_pow hs7 heb
      have h2 : ((s % 256) ||| eb) >>> 1 = ((s % 256) ||| eb) / 2 := by
        rw [Nat.shiftRight_eq_div_pow]
      apply get_state_ne_halt
      rw [h2]
      omega
    rcases ex with _ | d
    · have he : encodeDirState (State.Index s) none = (s % 256) ||| 0 := rfl
      rw [he]
      exact key 0 (by decide)
    · cases d
      · have he : encodeDirState (State.Index s) (some TapeMotion.Left)
            = (s % 256) ||| 1 := rfl
        rw [he]
        exact key 1 (by decide)
      · have he : encodeDirState (State.Index s) (some TapeMotion.Right)
            = (s % 256) ||| 0 := rfl
        rw [he]
        exact key 0 (by decide)

/-- C5 witness at the one-state example machine. -/
theorem claim_C5_witness :
    (compile 1 exM1 1 = none ↔ 127 ≤ exM1.states.length) ∧
    (∀ s : Nat, ∀ ex : Option TapeMotion, s < exM1.states.length →
      exM1.states.length < 127 →
      get_state (encodeDirState (State.Index s) ex) ≠ -1) :=
  claim_C5 1 1 exM1

/-- C10: indexing a compiled machine by an entry whose packed state decodes
as the halt sentinel computes a flat index of at least `254 * 2 ^ W`, which
lies past the end of the `N * 2 * 2 ^ W`-entry table (as `N < 127`), so the
lookup's `unwrap` panics (modelled as `none`): there is no guarded path for
following a halted compiled step. -/
theorem claim_C10 (bits fuel : Nat) (tm : TuringMachine)
    (lut : List (Option (Nat × Nat))) (tape ds : Nat)
    (hc : compile bits tm fuel = some lut) (ht : tape < 2 ^ bits)
    (hh : get_state ds = -1) :
    lut.length = tm.states.length * 2 * 2 ^ bits ∧
    254 * 2 ^ bits ≤ tape ||| ds <<< bits ∧
    lut_index bits lut tape ds = none := by
  obtain ⟨hN, hlut⟩ := compile_some bits fuel tm lut hc
  have hlen : lut.length = tm.states.length * 2 * 2 ^ bits := by
    rw [hlut, List.length_map, List.length_range, num_steps_eq]
  have hds : ds >>> 1 = 127 := by
    by_cases h : ds >>> 1 = 127
    · exact h
    · exact absurd hh (get_state_ne_halt h)
  have hds2 : 254 ≤ ds := by
    rw [Nat.shiftRight_eq_div_pow] at hds
    norm_num at hds
    omega
  have hor : tape ||| ds <<< bits = ds * 2 ^ bits + tape := by
    rw [Nat.lor_comm, shiftLeft_lor_eq_add ds bits tape ht]
  have hge : 254 * 2 ^ bits ≤ ds * 2 ^ bits :=
    Nat.mul_le_mul_right _ hds2
  have hNle : tm.states.length * 2 * 2 ^ bits ≤ 254 * 2 ^ bits :=
    Nat.mul_le_mul_right _ (by omega)
  refine ⟨hlen, by omega, ?_⟩
  rw [lut_index]
  rw [List.get?_eq_getElem?]
  apply List.getElem?_eq_none
  omega

/-- C10 witness: `exM1` compiled at `W = 1`, a halted entry byte `254`. -/
theorem claim_C10_witness :
    exLut.length = exM1.states.length * 2 * 2 ^ 1 ∧
    254 * 2 ^ 1 ≤ 0 ||| 254 <<< 1 ∧
    lut_index 1 exLut 0 254 = none :=
  claim_C10 1 2 exM1 exLut 0 254 (by decide) (by decide) (by decide)

end TuringSim
